/-
A shallow embedding in Lean 4 of the discrete-event M/D/1 queue simulation
from `Class_Prep/queueMD1_session3.py`: the `Event` / `Schedule` pair (a
priority queue implemented with CPython's `heapq`), the single-server `Queue`,
the `Airport` arrival process, and the `run_simulation` driver, together with
verified properties of these definitions.

Modelling conventions:
* Python floats are modelled as rationals (`ℚ`); the claims verified here are
  about control flow and ordering, not rounding.
* An event's callback (an arbitrary Python function in the source) is
  defunctionalized into the `Handler` sum type: the two callbacks the program
  ever schedules (`Queue.end_service` and `Airport.handle_arrival`) plus
  `noop`, an inert callback standing for an arbitrary payload in
  schedule-level properties.
* `random.expovariate` draws are modelled by an explicit injected stream
  `draws : ℕ → ℚ` consumed at index `drawIdx`, the standard shallow embedding
  of a random source.
* `heapq.heappush` / `heapq.heappop` are translated from CPython's
  `Lib/heapq.py` (`_siftdown`, `_siftup`), with the `while` loops written as
  recursion; `Event.__lt__` compares timestamps only, exactly as the source.
-/
import Mathlib

namespace MD1

/-- Defunctionalized event callbacks: the two functions the program schedules,
plus an inert `noop` payload used in schedule-level properties. -/
inductive Handler where
  | noop : Handler
  | endService : Handler
  | handleArrival : Handler
deriving DecidableEq

/-- `Event`: a timestamp plus its callback (`Event.__init__`).
`Event.__lt__` compares only the timestamps. -/
structure Event where
  timestamp : ℚ
  handler : Handler
deriving DecidableEq

instance : Inhabited Event := ⟨⟨0, Handler.noop⟩⟩

/-- Index of the parent of heap slot `i` (CPython's `(pos - 1) >> 1`). -/
def parentIdx (i : ℕ) : ℕ := (i - 1) / 2

/-- CPython `heapq._siftdown(heap, startpos, pos)`: `newitem` has been read
from slot `pos`; bubble it toward the root, moving parents down, until the
parent is not larger, then write `newitem` at the final slot.
(CPython's local `parent` is `heap.getD (parentIdx pos) default` here.) -/
def siftdownLoop (heap : List Event) (startpos pos : ℕ) (newitem : Event) :
    List Event :=
  if _h : startpos < pos then
    if newitem.timestamp < (heap.getD (parentIdx pos) default).timestamp then
      siftdownLoop (heap.set pos (heap.getD (parentIdx pos) default)) startpos
        (parentIdx pos) newitem
    else
      heap.set pos newitem
  else
    heap.set pos newitem
termination_by pos
decreasing_by
  simp only [parentIdx]
  omega

/-- The `childpos` CPython's `_siftup` loop body ends up with: the left child
`2*pos+1`, replaced by the right child `2*pos+2` when the right child exists
and is not greater (`if rightpos < endpos and not heap[childpos] <
heap[rightpos]: childpos = rightpos`). -/
def pickChild (heap : List Event) (pos endpos : ℕ) : ℕ :=
  if 2 * pos + 2 < endpos ∧
      ¬ (heap.getD (2 * pos + 1) default).timestamp <
        (heap.getD (2 * pos + 2) default).timestamp then
    2 * pos + 2
  else
    2 * pos + 1

/-- CPython `heapq._siftup(heap, pos)` body loop: bubble the hole at `pos`
down to a leaf, always moving the smaller child up, then place `newitem` at
the leaf and sift it back toward `startpos`. `endpos` is `len(heap)`, read
once before the loop (the loop only uses `set`, which preserves length). -/
def siftupLoop (heap : List Event) (startpos pos endpos : ℕ) (newitem : Event) :
    List Event :=
  if _h : 2 * pos + 1 < endpos then
    siftupLoop (heap.set pos (heap.getD (pickChild heap pos endpos) default))
      startpos (pickChild heap pos endpos) endpos newitem
  else
    siftdownLoop (heap.set pos newitem) startpos pos newitem
termination_by endpos - pos
decreasing_by
  have h1 : 2 * pos + 1 ≤ pickChild heap pos endpos := by
    unfold pickChild
    split <;> omega
  have h2 : pickChild heap pos endpos < endpos := by
    unfold pickChild
    split
    · rename_i hc
      omega
    · omega
  omega

/-- CPython `heapq._siftup(heap, pos)`: reads `endpos = len(heap)`,
`startpos = pos`, `newitem = heap[pos]`, then runs the loop. -/
def siftup (heap : List Event) (pos : ℕ) : List Event :=
  siftupLoop heap pos pos heap.length (heap.getD pos default)

/-- CPython `heapq.heappush(heap, item)`: append then `_siftdown(heap, 0, len(heap)-1)`. -/
def heappush (heap : List Event) (item : Event) : List Event :=
  siftdownLoop (heap ++ [item]) 0 heap.length item

/-- CPython `heapq.heappop(heap)`: pop the last slot; if the heap is still
non-empty, remember the root, move the last element into slot 0 and sift it
up, returning the old root.  Popping an empty heap raises `IndexError`,
modelled as `none`. -/
def heappop (heap : List Event) : Option (Event × List Event) :=
  if heap = [] then
    none
  else if heap.dropLast = [] then
    some ((heap.getLast?).getD default, heap.dropLast)
  else
    some (heap.dropLast.getD 0 default,
      siftup (heap.dropLast.set 0 ((heap.getLast?).getD default)) 0)

/-- `Schedule.__init__`: clock `now = 0.0` and an empty priority queue. -/
structure Schedule where
  now : ℚ
  priority_queue : List Event
deriving DecidableEq

def Schedule.init : Schedule := { now := 0, priority_queue := [] }

/-- `Schedule.add_event_at(timestamp, function, ...)`: a plain `heappush`;
the source performs no comparison between `timestamp` and `now`. -/
def Schedule.add_event_at (s : Schedule) (timestamp : ℚ) (handler : Handler) :
    Schedule :=
  { s with priority_queue := heappush s.priority_queue ⟨timestamp, handler⟩ }

/-- `Schedule.add_event_after(interval, function, ...)`. -/
def Schedule.add_event_after (s : Schedule) (interval : ℚ) (handler : Handler) :
    Schedule :=
  s.add_event_at (s.now + interval) handler

/-- `Schedule.next_event_time()`: the root's timestamp, or `float('inf')`
(modelled as `⊤ : WithTop ℚ`) when the queue is empty. -/
def Schedule.next_event_time (s : Schedule) : WithTop ℚ :=
  match s.priority_queue with
  | [] => ⊤
  | e :: _ => (e.timestamp : WithTop ℚ)

/-- `Queue.__init__(service_rate)`. -/
structure Queue where
  queue_length : ℕ
  in_service : ℕ
  service_rate : ℚ
  queue_length_history : List ℕ
  time_history : List ℚ
deriving DecidableEq

def Queue.init (service_rate : ℚ) : Queue :=
  { queue_length := 0
    in_service := 0
    service_rate := service_rate
    queue_length_history := []
    time_history := [] }

/-- `Queue.record_state(time)`: append `time` and the occupancy
`queue_length + in_service`. -/
def Queue.record_state (q : Queue) (time : ℚ) : Queue :=
  { q with
    time_history := q.time_history ++ [time]
    queue_length_history :=
      q.queue_length_history ++ [q.queue_length + q.in_service] }

/-- `Queue.start_service(schedule)`: guarded by
`queue_length > 0 and in_service == 0`; decrement the queue, occupy the
server, record a sample, and schedule `end_service` after the deterministic
interval `1 / service_rate`.  Otherwise do nothing. -/
def Queue.start_service (q : Queue) (s : Schedule) : Queue × Schedule :=
  if 0 < q.queue_length ∧ q.in_service = 0 then
    let q1 : Queue := { q with queue_length := q.queue_length - 1, in_service := 1 }
    let q2 := q1.record_state s.now
    let service_time := 1 / q.service_rate
    (q2, s.add_event_after service_time Handler.endService)
  else
    (q, s)

/-- `Queue.end_service(schedule)`: free the server, record a sample, and if
anyone is waiting start the next service immediately (cascading transition). -/
def Queue.end_service (q : Queue) (s : Schedule) : Queue × Schedule :=
  let q1 : Queue := { q with in_service := 0 }
  let q2 := q1.record_state s.now
  if 0 < q2.queue_length then
    q2.start_service s
  else
    (q2, s)

/-- `Queue.arrival(schedule)`: one more traveler waiting, record a sample,
and if the server is idle start service inline (no event is scheduled for
this step). -/
def Queue.arrival (q : Queue) (s : Schedule) : Queue × Schedule :=
  let q1 : Queue := { q with queue_length := q.queue_length + 1 }
  let q2 := q1.record_state s.now
  if q2.in_service = 0 then
    q2.start_service s
  else
    (q2, s)

/-- `Airport.__init__(arrival_rate, service_rate)`: the rate plus one queue. -/
structure Airport where
  arrival_rate : ℚ
  queue : Queue
deriving DecidableEq

/-- The full running context: the schedule, the airport, and the injected
stream of `random.expovariate` draws with its consumption index. -/
structure SimState where
  schedule : Schedule
  airport : Airport
  draws : ℕ → ℚ
  drawIdx : ℕ

/-- `Airport.handle_arrival(schedule)` / `Queue.end_service(schedule)` /
an inert callback, dispatched by tag.  `handle_arrival` performs the queue
arrival, then draws one inter-arrival interval and reschedules itself. -/
def runHandler (h : Handler) (st : SimState) : SimState :=
  match h with
  | Handler.noop => st
  | Handler.endService =>
    let r := st.airport.queue.end_service st.schedule
    { st with
      schedule := r.2
      airport := { st.airport with queue := r.1 } }
  | Handler.handleArrival =>
    let r := st.airport.queue.arrival st.schedule
    let inter_arrival_time := st.draws st.drawIdx
    { st with
      schedule := r.2.add_event_after inter_arrival_time Handler.handleArrival
      airport := { st.airport with queue := r.1 }
      drawIdx := st.drawIdx + 1 }

/-- `Schedule.run_next_event()`: return unchanged if no event is pending;
otherwise pop the earliest event, advance `now` to its timestamp, and run its
callback with the updated schedule. -/
def SimState.run_next_event (st : SimState) : SimState :=
  match heappop st.schedule.priority_queue with
  | none => st
  | some (e, rest) =>
    runHandler e.handler
      { st with schedule := { now := e.timestamp, priority_queue := rest } }

/-- `Airport.schedule_initial_arrival(schedule)`: draw one exponential
inter-arrival interval and schedule the first `handle_arrival` after it. -/
def SimState.schedule_initial_arrival (st : SimState) : SimState :=
  let inter_arrival_time := st.draws st.drawIdx
  { st with
    schedule := st.schedule.add_event_after inter_arrival_time Handler.handleArrival
    drawIdx := st.drawIdx + 1 }

/-- The driver's `while` loop:
`while schedule.priority_queue and schedule.next_event_time() <= run_until:
schedule.run_next_event()`, with explicit fuel (the source loop need not
terminate for adversarial inputs). -/
def driverLoop (run_until : ℚ) : ℕ → SimState → SimState
  | 0, st => st
  | fuel + 1, st =>
    if st.schedule.priority_queue ≠ [] ∧
        st.schedule.next_event_time ≤ (run_until : WithTop ℚ) then
      driverLoop run_until fuel st.run_next_event
    else
      st

/-- The timestamps of the events the driver loop pops, in execution order. -/
def driverTrace (run_until : ℚ) : ℕ → SimState → List ℚ
  | 0, _ => []
  | fuel + 1, st =>
    if st.schedule.priority_queue ≠ [] ∧
        st.schedule.next_event_time ≤ (run_until : WithTop ℚ) then
      (st.schedule.priority_queue.headD default).timestamp ::
        driverTrace run_until fuel st.run_next_event
    else
      []

/-- `run_simulation(arrival_rate, service_rate, run_until)`: build a fresh
`Schedule` and an `Airport` (with its `Queue`), schedule the first arrival,
then run the driver loop.  The source performs no validation of any
parameter. -/
def run_simulation (arrival_rate service_rate run_until : ℚ)
    (draws : ℕ → ℚ) (fuel : ℕ) : SimState :=
  let schedule := Schedule.init
  let airport : Airport :=
    { arrival_rate := arrival_rate, queue := Queue.init service_rate }
  let st : SimState :=
    { schedule := schedule, airport := airport, draws := draws, drawIdx := 0 }
  driverLoop run_until fuel st.schedule_initial_arrival

/-! ### Helper lemmas: list slots, `set`, and multisets -/

theorem getD_set_self {l : List Event} {i : ℕ} (a : Event) (h : i < l.length) :
    (l.set i a).getD i default = a := by
  rw [List.getD_eq_getElem?_getD, List.getElem?_set]
  simp [h]

theorem getD_set_ne {l : List Event} {i j : ℕ} (a : Event) (h : i ≠ j) :
    (l.set i a).getD j default = l.getD j default := by
  rw [List.getD_eq_getElem?_getD, List.getElem?_set, List.getD_eq_getElem?_getD]
  simp [h]

theorem getD_append_left {l₁ l₂ : List Event} {i : ℕ} (h : i < l₁.length) :
    (l₁ ++ l₂).getD i default = l₁.getD i default := by
  rw [List.getD_eq_getElem?_getD, List.getD_eq_getElem?_getD,
    List.getElem?_append_left h]

theorem getD_dropLast {l : List Event} {i : ℕ} (h : i < l.dropLast.length) :
    l.dropLast.getD i default = l.getD i default := by
  have h2 : i < l.length := by
    rw [List.length_dropLast] at h
    omega
  rw [List.getD_eq_getElem _ default h, List.getD_eq_getElem _ default h2,
    List.getElem_dropLast]

theorem getD_mem {l : List Event} {i : ℕ} (h : i < l.length) :
    l.getD i default ∈ l := by
  rw [List.getD_eq_getElem _ default h]
  exact List.getElem_mem h

/-- Overwriting slot `i` exchanges the old entry for the new one, as
multisets. -/
theorem cons_set_coe (l : List Event) (i : ℕ) (a : Event) (h : i < l.length) :
    l.getD i default ::ₘ ((l.set i a : List Event) : Multiset Event)
      = a ::ₘ (l : Multiset Event) := by
  induction l generalizing i with
  | nil => simp at h
  | cons x xs ih =>
    cases i with
    | zero =>
      rw [List.getD_cons_zero, List.set_cons_zero]
      simp only [← Multiset.cons_coe]
      exact Multiset.cons_swap x a _
    | succ n =>
      have hn : n < xs.length := by simpa using h
      rw [List.getD_cons_succ, List.set_cons_succ]
      simp only [← Multiset.cons_coe]
      rw [Multiset.cons_swap, ih n hn, Multiset.cons_swap]

/-- Copying slot `j` into slot `i` and then overwriting slot `j` has, as a
multiset, the same effect as overwriting slot `i` directly. -/
theorem coe_set_set (l : List Event) {i j : ℕ} (a : Event) (hi : i < l.length)
    (hj : j < l.length) (hij : i ≠ j) :
    (((l.set i (l.getD j default)).set j a : List Event) : Multiset Event)
      = ((l.set i a : List Event) : Multiset Event) := by
  have hj2 : j < (l.set i (l.getD j default)).length := by simpa using hj
  have e1 := cons_set_coe (l.set i (l.getD j default)) j a hj2
  rw [getD_set_ne _ hij] at e1
  have e2 := cons_set_coe l i (l.getD j default) hi
  have e3 := cons_set_coe l i a hi
  have key : l.getD i default ::ₘ l.getD j default ::ₘ
      (((l.set i (l.getD j default)).set j a : List Event) : Multiset Event)
      = l.getD i default ::ₘ l.getD j default ::ₘ
        ((l.set i a : List Event) : Multiset Event) := by
    calc l.getD i default ::ₘ l.getD j default ::ₘ
        (((l.set i (l.getD j default)).set j a : List Event) : Multiset Event)
        = l.getD i default ::ₘ
            (a ::ₘ ((l.set i (l.getD j default) : List Event) : Multiset Event)) := by
          rw [e1]
      _ = a ::ₘ l.getD i default ::ₘ
            ((l.set i (l.getD j default) : List Event) : Multiset Event) :=
          Multiset.cons_swap _ _ _
      _ = a ::ₘ l.getD j default ::ₘ (l : Multiset Event) := by rw [e2]
      _ = l.getD j default ::ₘ a ::ₘ (l : Multiset Event) := Multiset.cons_swap _ _ _
      _ = l.getD j default ::ₘ l.getD i default ::ₘ
            ((l.set i a : List Event) : Multiset Event) := by rw [e3]
      _ = l.getD i default ::ₘ l.getD j default ::ₘ
            ((l.set i a : List Event) : Multiset Event) := Multiset.cons_swap _ _ _
  exact (Multiset.cons_inj_right _).mp ((Multiset.cons_inj_right _).mp key)

/-! ### Length and multiset behaviour of the sift loops -/

theorem siftdownLoop_length : ∀ (pos : ℕ) (heap : List Event) (sp : ℕ)
    (x : Event), (siftdownLoop heap sp pos x).length = heap.length := by
  intro pos
  induction pos using Nat.strong_induction_on with
  | _ pos ih =>
    intro heap sp x
    rw [siftdownLoop]
    split
    · rename_i hsp
      split
      · rw [ih (parentIdx pos) (by unfold parentIdx; omega), List.length_set]
      · exact List.length_set ..
    · exact List.length_set ..

theorem pickChild_lower (heap : List Event) (pos endpos : ℕ) :
    2 * pos + 1 ≤ pickChild heap pos endpos := by
  unfold pickChild
  split <;> omega

theorem pickChild_upper (heap : List Event) {pos endpos : ℕ}
    (h : 2 * pos + 1 < endpos) : pickChild heap pos endpos < endpos := by
  unfold pickChild
  split
  · rename_i hc
    omega
  · omega

theorem parentIdx_pickChild (heap : List Event) (pos endpos : ℕ) :
    parentIdx (pickChild heap pos endpos) = pos := by
  unfold pickChild parentIdx
  split <;> omega

/-- The slot `pickChild` selects holds the smaller of the two children. -/
theorem pickChild_le (heap : List Event) {pos endpos : ℕ}
    (h : 2 * pos + 1 < endpos) {j : ℕ} (hj0 : 0 < j) (hj : j < endpos)
    (hpj : parentIdx j = pos) :
    (heap.getD (pickChild heap pos endpos) default).timestamp ≤
      (heap.getD j default).timestamp := by
  have hj12 : j = 2 * pos + 1 ∨ j = 2 * pos + 2 := by
    unfold parentIdx at hpj
    omega
  unfold pickChild
  split
  · rename_i hc
    rcases hj12 with rfl | rfl
    · exact le_of_not_lt hc.2
    · exact le_refl _
  · rename_i hc
    rcases hj12 with rfl | rfl
    · exact le_refl _
    · have hlt : (heap.getD (2 * pos + 1) default).timestamp <
          (heap.getD (2 * pos + 2) default).timestamp := by
        by_contra hnot
        exact hc ⟨hj, hnot⟩
      exact le_of_lt hlt

theorem siftupLoop_length : ∀ (n pos : ℕ) (heap : List Event) (sp endpos : ℕ)
    (x : Event), endpos - pos = n → endpos ≤ heap.length →
    (siftupLoop heap sp pos endpos x).length = heap.length := by
  intro n
  induction n using Nat.strong_induction_on with
  | _ n ih =>
    intro pos heap sp endpos x hn hle
    rw [siftupLoop]
    split
    · rename_i hchild
      have h1 := pickChild_lower heap pos endpos
      have h2 := pickChild_upper heap hchild
      rw [ih (endpos - pickChild heap pos endpos) (by omega) _ _ sp endpos x
        rfl (by simpa using hle), List.length_set]
    · rw [siftdownLoop_length, List.length_set]

theorem siftdownLoop_coe : ∀ (pos : ℕ) (heap : List Event) (sp : ℕ) (x : Event),
    pos < heap.length →
    ((siftdownLoop heap sp pos x : List Event) : Multiset Event)
      = ((heap.set pos x : List Event) : Multiset Event) := by
  intro pos
  induction pos using Nat.strong_induction_on with
  | _ pos ih =>
    intro heap sp x hlen
    rw [siftdownLoop]
    split
    · rename_i hsp
      split
      · rename_i hlt
        have hppos : parentIdx pos < pos := by unfold parentIdx; omega
        rw [ih (parentIdx pos) hppos _ sp x (by simpa using lt_trans hppos hlen)]
        exact coe_set_set heap x hlen (lt_trans hppos hlen) (by omega)
      · rfl
    · rfl

theorem siftupLoop_coe : ∀ (n pos : ℕ) (heap : List Event) (sp endpos : ℕ)
    (x : Event), endpos - pos = n → pos < heap.length → endpos ≤ heap.length →
    ((siftupLoop heap sp pos endpos x : List Event) : Multiset Event)
      = ((heap.set pos x : List Event) : Multiset Event) := by
  intro n
  induction n using Nat.strong_induction_on with
  | _ n ih =>
    intro pos heap sp endpos x hn hpos hle
    rw [siftupLoop]
    split
    · rename_i hchild
      have h1 := pickChild_lower heap pos endpos
      have h2 := pickChild_upper heap hchild
      rw [ih (endpos - pickChild heap pos endpos) (by omega) _ _ sp endpos x
        rfl (by simp; omega) (by simpa using hle)]
      exact coe_set_set heap x hpos (by omega) (by omega)
    · rw [siftdownLoop_coe _ _ _ _ (by simpa using hpos), List.set_set]

/-! ### The binary min-heap invariant and correctness of the sift loops -/

/-- The `heapq` invariant: every slot's timestamp is at least its parent's
(ordering events by `Event.__lt__`, i.e. by timestamp only). -/
def IsHeap (l : List Event) : Prop :=
  ∀ i, 0 < i → i < l.length →
    (l.getD (parentIdx i) default).timestamp ≤ (l.getD i default).timestamp

/-- The heap invariant on every edge not touching slot `p` (slot `p` is the
conceptual hole during a sift). -/
def HeapExcept (l : List Event) (p : ℕ) : Prop :=
  ∀ j, 0 < j → j < l.length → j ≠ p → parentIdx j ≠ p →
    (l.getD (parentIdx j) default).timestamp ≤ (l.getD j default).timestamp

theorem isHeap_nil : IsHeap [] := by
  intro i h1 h2
  simp at h2

theorem siftdownLoop_isHeap : ∀ (pos : ℕ) (heap : List Event) (x : Event),
    pos < heap.length →
    HeapExcept heap pos →
    (∀ c, 0 < c → c < heap.length → parentIdx c = pos →
      x.timestamp ≤ (heap.getD c default).timestamp) →
    (0 < pos → ∀ c, 0 < c → c < heap.length → parentIdx c = pos →
      (heap.getD (parentIdx pos) default).timestamp ≤
        (heap.getD c default).timestamp) →
    IsHeap (siftdownLoop heap 0 pos x) := by
  intro pos
  induction pos using Nat.strong_induction_on with
  | _ pos ih =>
    intro heap x hlen hA hB hC
    rw [siftdownLoop]
    split
    · rename_i hsp
      split
      · rename_i hlt
        have hppos : parentIdx pos < pos := by unfold parentIdx; omega
        apply ih (parentIdx pos) hppos _ x (by simpa using lt_trans hppos hlen)
        · -- the hole has moved to `parentIdx pos`
          intro j hj0 hjlen hjne hpjne
          have hjlen2 : j < heap.length := by simpa using hjlen
          by_cases hjpos : j = pos
          · subst hjpos
            exact absurd rfl hpjne
          · by_cases hpjpos : parentIdx j = pos
            · rw [hpjpos, getD_set_self _ hlen,
                getD_set_ne _ (Ne.symm hjpos)]
              exact hC hsp j hj0 hjlen2 hpjpos
            · rw [getD_set_ne _ (fun he => hpjpos he.symm),
                getD_set_ne _ (Ne.symm hjpos)]
              exact hA j hj0 hjlen2 hjpos hpjpos
        · -- `x` is below every child of the new hole
          intro c hc0 hclen hpc
          have hclen2 : c < heap.length := by simpa using hclen
          by_cases hcpos : c = pos
          · subst hcpos
            rw [getD_set_self _ hlen]
            exact le_of_lt hlt
          · rw [getD_set_ne _ (Ne.symm hcpos)]
            have := hA c hc0 hclen2 hcpos (by rw [hpc]; omega)
            rw [hpc] at this
            exact le_trans (le_of_lt hlt) this
        · -- the grandparent is below every child of the new hole
          intro hp0 c hc0 hclen hpc
          have hclen2 : c < heap.length := by simpa using hclen
          have hgp : parentIdx (parentIdx pos) ≤ parentIdx pos := by
            unfold parentIdx
            omega
          have hgp_ne : parentIdx (parentIdx pos) ≠ pos := by omega
          have hP := hA (parentIdx pos) hp0 (lt_trans hppos hlen)
            (by omega) hgp_ne
          by_cases hcpos : c = pos
          · subst hcpos
            rw [getD_set_self _ hlen, getD_set_ne _ (fun he => hgp_ne he.symm)]
            exact hP
          · rw [getD_set_ne _ (Ne.symm hcpos),
              getD_set_ne _ (fun he => hgp_ne he.symm)]
            refine le_trans hP ?_
            have := hA c hc0 hclen2 hcpos (by rw [hpc]; omega)
            rw [hpc] at this
            exact this
      · rename_i hge
        -- `x` rests at `pos`: the result is `heap.set pos x`
        intro j hj0 hjlen
        have hjlen2 : j < heap.length := by simpa using hjlen
        by_cases hjpos : j = pos
        · subst hjpos
          rw [getD_set_self _ hlen,
            getD_set_ne _ (by unfold parentIdx; omega : parentIdx j ≠ j).symm]
          exact le_of_not_lt hge
        · by_cases hpjpos : parentIdx j = pos
          · rw [hpjpos, getD_set_self _ hlen, getD_set_ne _ (Ne.symm hjpos)]
            exact hB j hj0 hjlen2 hpjpos
          · rw [getD_set_ne _ (fun he => hpjpos he.symm),
              getD_set_ne _ (Ne.symm hjpos)]
            exact hA j hj0 hjlen2 hjpos hpjpos
    · rename_i hsp
      have hpos0 : pos = 0 := by omega
      subst hpos0
      intro j hj0 hjlen
      have hjlen2 : j < heap.length := by simpa using hjlen
      by_cases hpjpos : parentIdx j = 0
      · rw [hpjpos, getD_set_self _ hlen, getD_set_ne _ (by omega)]
        exact hB j hj0 hjlen2 hpjpos
      · rw [getD_set_ne _ (fun he => hpjpos he.symm), getD_set_ne _ (by omega)]
        exact hA j hj0 hjlen2 (by omega) hpjpos

theorem siftupLoop_isHeap : ∀ (n pos endpos : ℕ) (heap : List Event)
    (x : Event), endpos - pos = n → pos < endpos → endpos = heap.length →
    HeapExcept heap pos →
    (0 < pos → ∀ c, 0 < c → c < heap.length → parentIdx c = pos →
      (heap.getD (parentIdx pos) default).timestamp ≤
        (heap.getD c default).timestamp) →
    IsHeap (siftupLoop heap 0 pos endpos x) := by
  intro n
  induction n using Nat.strong_induction_on with
  | _ n ih =>
    intro pos endpos heap x hn hpos hend hA hC
    rw [siftupLoop]
    split
    · rename_i hchild
      have hc1 := pickChild_lower heap pos endpos
      have hc2 := pickChild_upper heap hchild
      have hc3 := parentIdx_pickChild heap pos endpos
      have hlen : pos < heap.length := by omega
      have hclen : pickChild heap pos endpos < heap.length := by omega
      apply ih (endpos - pickChild heap pos endpos) (by omega) _ endpos _ x rfl
        (by omega) (by simpa using hend)
      · -- the hole has moved down to the chosen child
        intro j hj0 hjlen hjc hpjc
        have hjlen2 : j < heap.length := by simpa using hjlen
        by_cases hjpos : j = pos
        · subst hjpos
          rw [getD_set_self _ hlen,
            getD_set_ne _ (by unfold parentIdx; omega : parentIdx j ≠ j).symm]
          exact hC hj0 _ (by omega) hclen hc3
        · by_cases hpjpos : parentIdx j = pos
          · rw [hpjpos, getD_set_self _ hlen, getD_set_ne _ (Ne.symm hjpos)]
            exact pickChild_le heap hchild hj0 (by omega) hpjpos
          · rw [getD_set_ne _ (fun he => hpjpos he.symm),
              getD_set_ne _ (Ne.symm hjpos)]
            exact hA j hj0 hjlen2 hjpos hpjpos
      · -- the grandparent bound across the new hole
        intro hc0 d hd0 hdlen hpd
        have hdlen2 : d < heap.length := by simpa using hdlen
        have hdgt : pickChild heap pos endpos < d := by
          unfold parentIdx at hpd
          omega
        have hdne : d ≠ pos := by omega
        rw [hc3, getD_set_self _ hlen, getD_set_ne _ (Ne.symm hdne)]
        have := hA d hd0 hdlen2 hdne (by rw [hpd]; omega)
        rw [hpd] at this
        exact this
    · rename_i hchild
      apply siftdownLoop_isHeap pos _ x (by simpa using by omega : pos < (heap.set pos x).length)
      · intro j hj0 hjlen hjne hpjne
        have hjlen2 : j < heap.length := by simpa using hjlen
        rw [getD_set_ne _ (fun he => hpjne he.symm), getD_set_ne _ (Ne.symm hjne)]
        exact hA j hj0 hjlen2 hjne hpjne
      · intro c hc0 hclen hpc
        exfalso
        have hclen2 : c < heap.length := by simpa using hclen
        unfold parentIdx at hpc
        omega
      · intro hp0 c hc0 hclen hpc
        exfalso
        have hclen2 : c < heap.length := by simpa using hclen
        unfold parentIdx at hpc
        omega

/-! ### Correctness of `heappush` and `heappop` -/

theorem heappush_isHeap {heap : List Event} (h : IsHeap heap) (e : Event) :
    IsHeap (heappush heap e) := by
  unfold heappush
  apply siftdownLoop_isHeap heap.length _ e (by simp)
  · intro j hj0 hjlen hjne hpjne
    have hjlen2 : j < heap.length := by
      simp only [List.length_append, List.length_singleton] at hjlen
      omega
    have hpj : parentIdx j < j := by unfold parentIdx; omega
    rw [getD_append_left hjlen2, getD_append_left (by omega)]
    exact h j hj0 hjlen2
  · intro c hc0 hclen hpc
    exfalso
    simp only [List.length_append, List.length_singleton] at hclen
    unfold parentIdx at hpc
    omega
  · intro hp0 c hc0 hclen hpc
    exfalso
    simp only [List.length_append, List.length_singleton] at hclen
    unfold parentIdx at hpc
    omega

theorem heappush_coe (heap : List Event) (e : Event) :
    ((heappush heap e : List Event) : Multiset Event)
      = e ::ₘ (heap : Multiset Event) := by
  unfold heappush
  rw [siftdownLoop_coe heap.length _ 0 e (by simp)]
  have hlen : heap.length < (heap ++ [e]).length := by simp
  have h1 := cons_set_coe (heap ++ [e]) heap.length e hlen
  have h2 : (heap ++ [e]).getD heap.length default = e := by
    rw [List.getD_eq_getElem _ default hlen]
    simp
  rw [h2] at h1
  have h3 := (Multiset.cons_inj_right e).mp h1
  rw [h3, ← Multiset.coe_add, Multiset.coe_singleton]
  rw [add_comm, ← Multiset.singleton_add]

theorem heappop_none_iff (heap : List Event) :
    heappop heap = none ↔ heap = [] := by
  unfold heappop
  split
  · rename_i h
    simp [h]
  · rename_i h
    split <;> simp [h]

/-- A non-empty list is its last element on top of `dropLast`, as multisets. -/
theorem coe_eq_getLast_cons (heap : List Event) (h : heap ≠ []) :
    (heap : Multiset Event)
      = (heap.getLast?.getD default) ::ₘ (heap.dropLast : Multiset Event) := by
  conv_lhs => rw [← List.dropLast_append_getLast h]
  rw [List.getLast?_eq_getLast _ h, Option.getD_some, ← Multiset.coe_add,
    Multiset.coe_singleton, add_comm, ← Multiset.singleton_add]

theorem heappop_coe {heap : List Event} {e : Event} {rest : List Event}
    (h : heappop heap = some (e, rest)) :
    (heap : Multiset Event) = e ::ₘ (rest : Multiset Event) := by
  unfold heappop at h
  split at h
  · exact absurd h (by simp)
  · rename_i hne
    split at h
    · rename_i hrest
      simp only [Option.some.injEq, Prod.mk.injEq] at h
      obtain ⟨rfl, rfl⟩ := h
      exact coe_eq_getLast_cons heap hne
    · rename_i hrest
      have hr : 0 < heap.dropLast.length := List.length_pos.mpr hrest
      simp only [Option.some.injEq, Prod.mk.injEq] at h
      obtain ⟨rfl, rfl⟩ := h
      unfold siftup
      have hset :
          (heap.dropLast.set 0 (heap.getLast?.getD default)).getD 0 default
            = heap.getLast?.getD default :=
        getD_set_self _ (by simpa using hr)
      rw [hset, siftupLoop_coe ((heap.dropLast.set 0 (heap.getLast?.getD default)).length - 0)
        0 _ 0 _ _ rfl (by simpa using hr) (le_refl _), List.set_set]
      rw [cons_set_coe heap.dropLast 0 (heap.getLast?.getD default) hr]
      exact coe_eq_getLast_cons heap hne

theorem heappop_length {heap : List Event} {e : Event} {rest : List Event}
    (h : heappop heap = some (e, rest)) :
    rest.length + 1 = heap.length := by
  have := congrArg Multiset.card (heappop_coe h)
  simp only [Multiset.coe_card, Multiset.card_cons] at this
  omega

theorem heappop_fst {heap : List Event} {e : Event} {rest : List Event}
    (h : heappop heap = some (e, rest)) : e = heap.getD 0 default := by
  unfold heappop at h
  split at h
  · exact absurd h (by simp)
  · rename_i hne
    split at h
    · rename_i hrest
      simp only [Option.some.injEq, Prod.mk.injEq] at h
      obtain ⟨rfl, rfl⟩ := h
      have hd := List.dropLast_append_getLast hne
      rw [hrest, List.nil_append] at hd
      rw [List.getLast?_eq_getLast _ hne, Option.getD_some]
      conv_rhs => rw [← hd]
      rw [List.getD_cons_zero]
    · rename_i hrest
      simp only [Option.some.injEq, Prod.mk.injEq] at h
      obtain ⟨rfl, rfl⟩ := h
      rw [getD_dropLast (List.length_pos.mpr hrest)]

theorem heappop_isHeap {heap : List Event} {e : Event} {rest : List Event}
    (hh : IsHeap heap) (h : heappop heap = some (e, rest)) : IsHeap rest := by
  unfold heappop at h
  split at h
  · exact absurd h (by simp)
  · rename_i hne
    split at h
    · rename_i hrest
      simp only [Option.some.injEq, Prod.mk.injEq] at h
      obtain ⟨rfl, rfl⟩ := h
      rw [hrest]
      exact isHeap_nil
    · rename_i hrest
      have hr : 0 < heap.dropLast.length := List.length_pos.mpr hrest
      simp only [Option.some.injEq, Prod.mk.injEq] at h
      obtain ⟨rfl, rfl⟩ := h
      unfold siftup
      apply siftupLoop_isHeap ((heap.dropLast.set 0 (heap.getLast?.getD default)).length - 0)
        0 _ _ _ rfl (by simpa using hr) rfl
      · intro j hj0 hjlen hjne hpjne
        have hjlen2 : j < heap.dropLast.length := by simpa using hjlen
        have hjheap : j < heap.length := by
          rw [List.length_dropLast] at hjlen2
          omega
        have hpj : parentIdx j < j := by unfold parentIdx; omega
        rw [getD_set_ne _ (fun he2 => hpjne he2.symm),
          getD_set_ne _ (Ne.symm hjne), getD_dropLast hjlen2,
          getD_dropLast (by omega)]
        exact hh j hj0 hjheap
      · intro hp0
        exact absurd hp0 (lt_irrefl 0)

/-! ### The root of a heap is minimal; draining a heap sorts it -/

theorem isHeap_root_le {heap : List Event} (h : IsHeap heap) :
    ∀ i, i < heap.length →
      (heap.getD 0 default).timestamp ≤ (heap.getD i default).timestamp := by
  intro i
  induction i using Nat.strong_induction_on with
  | _ i ih =>
    intro hi
    rcases Nat.eq_zero_or_pos i with rfl | hpos
    · exact le_refl _
    · have hpar : parentIdx i < i := by unfold parentIdx; omega
      exact le_trans (ih (parentIdx i) hpar (by omega)) (h i hpos hi)

theorem isHeap_root_le_mem {heap : List Event} (h : IsHeap heap) {y : Event}
    (hy : y ∈ heap) :
    (heap.getD 0 default).timestamp ≤ y.timestamp := by
  obtain ⟨n, hn, rfl⟩ := List.mem_iff_getElem.mp hy
  rw [← List.getD_eq_getElem _ default hn]
  exact isHeap_root_le h n hn

/-- Pop every event off a heap, in order. -/
def popAll (heap : List Event) : List Event :=
  match hp : heappop heap with
  | none => []
  | some (e, rest) => e :: popAll rest
termination_by heap.length
decreasing_by
  have := heappop_length hp
  omega

theorem popAll_coe : ∀ (n : ℕ) (heap : List Event), heap.length = n →
    ((popAll heap : List Event) : Multiset Event) = (heap : Multiset Event) := by
  intro n
  induction n using Nat.strong_induction_on with
  | _ n ih =>
    intro heap hn
    rw [popAll]
    rcases hp : heappop heap with _ | ⟨e, rest⟩
    · rw [(heappop_none_iff heap).mp hp]
    · have hlen := heappop_length hp
      rw [← Multiset.cons_coe, ih rest.length (by omega) rest rfl]
      exact (heappop_coe hp).symm

theorem popAll_sorted : ∀ (n : ℕ) (heap : List Event), heap.length = n →
    IsHeap heap →
    List.Sorted (· ≤ ·) ((popAll heap).map Event.timestamp) := by
  intro n
  induction n using Nat.strong_induction_on with
  | _ n ih =>
    intro heap hn hh
    rw [popAll]
    rcases hp : heappop heap with _ | ⟨e, rest⟩
    · simp
    · have hlen := heappop_length hp
      rw [List.map_cons, List.sorted_cons]
      constructor
      · intro b hb
        obtain ⟨y, hy, rfl⟩ := List.mem_map.mp hb
        have hy2 : y ∈ rest := by
          rw [← Multiset.mem_coe, ← popAll_coe rest.length rest rfl,
            Multiset.mem_coe]
          exact hy
        have hy3 : y ∈ heap := by
          rw [← Multiset.mem_coe, heappop_coe hp]
          exact Multiset.mem_cons_of_mem (Multiset.mem_coe.mpr hy2)
        rw [heappop_fst hp]
        exact isHeap_root_le_mem hh hy3
      · exact ih rest.length (by omega) rest rfl (heappop_isHeap hh hp)

/-! ### Harness definitions used to state the verified properties -/

/-- An all-zero draw stream (a legal value of the injected random source). -/
def zeroDraws : ℕ → ℚ := fun _ => 0

/-- A simulation state holding a given schedule and an inert queue, for
schedule-level properties. -/
def mkScheduleState (s : Schedule) : SimState :=
  { schedule := s
    airport := { arrival_rate := 1, queue := Queue.init 1 }
    draws := zeroDraws
    drawIdx := 0 }

/-- Push a list of timestamps onto a fresh `Schedule` via `add_event_at`,
with inert callbacks. -/
def addAllAt (tss : List ℚ) : Schedule :=
  tss.foldl (fun s t => s.add_event_at t Handler.noop) Schedule.init

/-- Iterate `run_next_event` until no event is pending (with fuel):
"running the Schedule to completion". -/
def runAllEvents : ℕ → SimState → SimState
  | 0, st => st
  | fuel + 1, st =>
    if st.schedule.priority_queue = [] then st
    else runAllEvents fuel st.run_next_event

/-- The clock value observed after each `run_next_event` call, while events
remain (with fuel). -/
def drainNow : ℕ → SimState → List ℚ
  | 0, _ => []
  | fuel + 1, st =>
    if st.schedule.priority_queue = [] then []
    else st.run_next_event.schedule.now :: drainNow fuel st.run_next_event

/-- `run_next_event` iterated `n` times. -/
def iterRun : ℕ → SimState → SimState
  | 0, st => st
  | n + 1, st => iterRun n st.run_next_event

/-- The three direct state transitions of the single-server queue. -/
inductive QOp where
  | arrival : QOp
  | startService : QOp
  | endService : QOp

def applyQOp (op : QOp) (p : Queue × Schedule) : Queue × Schedule :=
  match op with
  | QOp.arrival => p.1.arrival p.2
  | QOp.startService => p.1.start_service p.2
  | QOp.endService => p.1.end_service p.2

def applyQOps (ops : List QOp) (p : Queue × Schedule) : Queue × Schedule :=
  ops.foldl (fun p op => applyQOp op p) p

/-- The single-arrival scenario: an empty queue, one `arrival()` at clock
time `t`, then the schedule run to completion. -/
def singleArrivalRun (t rate : ℚ) (fuel : ℕ) : SimState :=
  runAllEvents fuel
    { schedule := ((Queue.init rate).arrival (Schedule.mk t [])).2
      airport :=
        { arrival_rate := 1, queue := ((Queue.init rate).arrival (Schedule.mk t [])).1 }
      draws := zeroDraws
      drawIdx := 0 }

/-! ### Small evaluation lemmas (the sift loops are defined by well-founded
recursion, so concrete runs are evaluated through these equations) -/

theorem heappush_nil (e : Event) : heappush [] e = [e] := by
  simp [heappush, siftdownLoop]

theorem heappop_single (e : Event) : heappop [e] = some (e, []) := by
  simp [heappop]

theorem heappop_pair (a b : Event) : heappop [a, b] = some (a, [b]) := by
  simp [heappop, siftup, siftupLoop, siftdownLoop]

/-! ### Effect of each operation on the schedule -/

theorem Queue.start_service_sched (q : Queue) (s : Schedule) :
    (q.start_service s).2 = s ∨
    (q.start_service s).2
      = s.add_event_at (s.now + 1 / q.service_rate) Handler.endService := by
  unfold Queue.start_service
  split
  · right
    rfl
  · left
    rfl

theorem Queue.end_service_sched (q : Queue) (s : Schedule) :
    (q.end_service s).2 = s ∨
    (q.end_service s).2
      = s.add_event_at (s.now + 1 / q.service_rate) Handler.endService := by
  simp only [Queue.end_service]
  split
  · exact Queue.start_service_sched _ s
  · left
    rfl

theorem Queue.arrival_sched (q : Queue) (s : Schedule) :
    (q.arrival s).2 = s ∨
    (q.arrival s).2
      = s.add_event_at (s.now + 1 / q.service_rate) Handler.endService := by
  simp only [Queue.arrival]
  split
  · exact Queue.start_service_sched _ s
  · left
    rfl

theorem Queue.start_service_rate (q : Queue) (s : Schedule) :
    (q.start_service s).1.service_rate = q.service_rate := by
  unfold Queue.start_service
  split <;> rfl

theorem Queue.end_service_rate (q : Queue) (s : Schedule) :
    (q.end_service s).1.service_rate = q.service_rate := by
  simp only [Queue.end_service]
  split
  · exact Queue.start_service_rate _ s
  · rfl

theorem Queue.arrival_rate_preserved (q : Queue) (s : Schedule) :
    (q.arrival s).1.service_rate = q.service_rate := by
  simp only [Queue.arrival]
  split
  · exact Queue.start_service_rate _ s
  · rfl

/-- Every callback leaves `now`, the queue's `service_rate` and the draw
stream unchanged, and only ever pushes onto the priority queue; each pushed
event is timestamped `now` plus the deterministic service interval or the
current random draw. -/
theorem runHandler_schedule (h : Handler) (st : SimState) :
    ∃ pushes : List Event,
      (runHandler h st).schedule.priority_queue
        = List.foldl heappush st.schedule.priority_queue pushes ∧
      (runHandler h st).schedule.now = st.schedule.now ∧
      (runHandler h st).airport.queue.service_rate
        = st.airport.queue.service_rate ∧
      (runHandler h st).draws = st.draws ∧
      ∀ e ∈ pushes, ∃ d : ℚ, e.timestamp = st.schedule.now + d ∧
        (d = 1 / st.airport.queue.service_rate ∨ d = st.draws st.drawIdx) := by
  cases h with
  | noop => exact ⟨[], rfl, rfl, rfl, rfl, by simp⟩
  | endService =>
    rcases Queue.end_service_sched st.airport.queue st.schedule with he | he
    · refine ⟨[], ?_, ?_, ?_, rfl, by simp⟩
      · show (st.airport.queue.end_service st.schedule).2.priority_queue = _
        rw [he]
        rfl
      · show (st.airport.queue.end_service st.schedule).2.now = _
        rw [he]
      · exact Queue.end_service_rate _ _
    · refine ⟨[⟨st.schedule.now + 1 / st.airport.queue.service_rate,
        Handler.endService⟩], ?_, ?_, ?_, rfl, ?_⟩
      · show (st.airport.queue.end_service st.schedule).2.priority_queue = _
        rw [he]
        rfl
      · show (st.airport.queue.end_service st.schedule).2.now = _
        rw [he]
        rfl
      · exact Queue.end_service_rate _ _
      · intro e he2
        rw [List.mem_singleton] at he2
        subst he2
        exact ⟨1 / st.airport.queue.service_rate, rfl, Or.inl rfl⟩
  | handleArrival =>
    rcases Queue.arrival_sched st.airport.queue st.schedule with ha | ha
    · refine ⟨[⟨st.schedule.now + st.draws st.drawIdx, Handler.handleArrival⟩],
        ?_, ?_, ?_, rfl, ?_⟩
      · show ((st.airport.queue.arrival st.schedule).2.add_event_after
            (st.draws st.drawIdx) Handler.handleArrival).priority_queue = _
        rw [Schedule.add_event_after, ha]
        rfl
      · show ((st.airport.queue.arrival st.schedule).2.add_event_after
            (st.draws st.drawIdx) Handler.handleArrival).now = _
        rw [Schedule.add_event_after, ha]
        rfl
      · exact Queue.arrival_rate_preserved _ _
      · intro e he2
        rw [List.mem_singleton] at he2
        subst he2
        exact ⟨st.draws st.drawIdx, rfl, Or.inr rfl⟩
    · refine ⟨[⟨st.schedule.now + 1 / st.airport.queue.service_rate,
        Handler.endService⟩,
        ⟨st.schedule.now + st.draws st.drawIdx, Handler.handleArrival⟩],
        ?_, ?_, ?_, rfl, ?_⟩
      · show ((st.airport.queue.arrival st.schedule).2.add_event_after
            (st.draws st.drawIdx) Handler.handleArrival).priority_queue = _
        rw [Schedule.add_event_after, ha]
        rfl
      · show ((st.airport.queue.arrival st.schedule).2.add_event_after
            (st.draws st.drawIdx) Handler.handleArrival).now = _
        rw [Schedule.add_event_after, ha]
        rfl
      · exact Queue.arrival_rate_preserved _ _
      · intro e he2
        rcases List.mem_cons.mp he2 with rfl | he3
        · exact ⟨1 / st.airport.queue.service_rate, rfl, Or.inl rfl⟩
        · rw [List.mem_singleton] at he3
          subst he3
          exact ⟨st.draws st.drawIdx, rfl, Or.inr rfl⟩

/-! ### Pushing with `foldl heappush` -/

theorem foldl_heappush_isHeap : ∀ (evs acc : List Event),
    IsHeap acc → IsHeap (List.foldl heappush acc evs) := by
  intro evs
  induction evs with
  | nil => intro acc h; exact h
  | cons e rest ih =>
    intro acc h
    exact ih _ (heappush_isHeap h e)

theorem foldl_heappush_coe : ∀ (evs acc : List Event),
    ((List.foldl heappush acc evs : List Event) : Multiset Event)
      = (acc : Multiset Event) + (evs : Multiset Event) := by
  intro evs
  induction evs with
  | nil => intro acc; simp
  | cons e rest ih =>
    intro acc
    rw [List.foldl_cons, ih, heappush_coe, ← Multiset.cons_coe,
      Multiset.cons_add, Multiset.add_cons]

/-! ### Unfolding `popAll` -/

theorem popAll_nil : popAll [] = [] := by
  rw [popAll]
  split
  · rfl
  · rename_i e rest hsome
    rw [(heappop_none_iff []).mpr rfl] at hsome
    exact absurd hsome (by simp)

theorem popAll_cons {heap : List Event} {e : Event} {rest : List Event}
    (hp : heappop heap = some (e, rest)) : popAll heap = e :: popAll rest := by
  rw [popAll]
  split
  · rename_i hnone
    rw [hp] at hnone
    exact absurd hnone (by simp)
  · rename_i e2 rest2 hsome
    rw [hp] at hsome
    simp only [Option.some.injEq, Prod.mk.injEq] at hsome
    obtain ⟨rfl, rfl⟩ := hsome
    rfl

/-! ### One `run_next_event` step -/

/-- Running an inert event only pops it and advances the clock. -/
theorem run_next_event_noop {st : SimState} {e : Event} {rest : List Event}
    (hp : heappop st.schedule.priority_queue = some (e, rest))
    (hh : e.handler = Handler.noop) :
    st.run_next_event
      = { st with schedule := ⟨e.timestamp, rest⟩ } := by
  unfold SimState.run_next_event
  rw [hp]
  show runHandler e.handler _ = _
  rw [hh]
  rfl

/-- When an event is pending, `run_next_event` pops it, advances the clock to
its timestamp, and leaves only its handler's pushes besides the remaining
events; each push is timestamped the new clock plus the deterministic service
interval or the pending random draw. -/
theorem run_next_event_some {st : SimState} {e : Event} {rest : List Event}
    (hp : heappop st.schedule.priority_queue = some (e, rest)) :
    ∃ pushes : List Event,
      st.run_next_event.schedule.priority_queue
        = List.foldl heappush rest pushes ∧
      st.run_next_event.schedule.now = e.timestamp ∧
      st.run_next_event.airport.queue.service_rate
        = st.airport.queue.service_rate ∧
      st.run_next_event.draws = st.draws ∧
      ∀ x ∈ pushes, ∃ d : ℚ, x.timestamp = e.timestamp + d ∧
        (d = 1 / st.airport.queue.service_rate ∨ d = st.draws st.drawIdx) := by
  have hred : st.run_next_event
      = runHandler e.handler { st with schedule := ⟨e.timestamp, rest⟩ } := by
    unfold SimState.run_next_event
    rw [hp]
  obtain ⟨pushes, h1, h2, h3, h4, h5⟩ :=
    runHandler_schedule e.handler { st with schedule := ⟨e.timestamp, rest⟩ }
  rw [hred]
  exact ⟨pushes, h1, h2, h3, h4, h5⟩

/-- The causality invariant `heapq`-based schedules maintain: the pending
list is a well-formed heap and no pending event lies before the clock. -/
def ScheduleInv (st : SimState) : Prop :=
  IsHeap st.schedule.priority_queue ∧
  ∀ e ∈ st.schedule.priority_queue, st.schedule.now ≤ e.timestamp

/-- One `run_next_event` step never moves the clock backwards when no pending
event lies in the past, and it preserves that invariant (given a positive
service rate and non-negative draws). -/
theorem run_next_event_mono {st : SimState}
    (hrate : 0 < st.airport.queue.service_rate)
    (hdraws : ∀ i, 0 ≤ st.draws i)
    (hinv : ScheduleInv st) :
    st.schedule.now ≤ st.run_next_event.schedule.now ∧
    ScheduleInv st.run_next_event ∧
    st.run_next_event.airport.queue.service_rate
      = st.airport.queue.service_rate ∧
    st.run_next_event.draws = st.draws := by
  rcases hp : heappop st.schedule.priority_queue with _ | ⟨e, rest⟩
  · have hid : st.run_next_event = st := by
      unfold SimState.run_next_event
      rw [hp]
    rw [hid]
    exact ⟨le_refl _, hinv, rfl, rfl⟩
  · obtain ⟨pushes, h1, h2, h3, h4, h5⟩ := run_next_event_some hp
    have hmem : e ∈ st.schedule.priority_queue := by
      rw [← Multiset.mem_coe, heappop_coe hp]
      exact Multiset.mem_cons_self _ _
    have hnow : st.schedule.now ≤ e.timestamp := hinv.2 e hmem
    refine ⟨by rw [h2]; exact hnow, ⟨?_, ?_⟩, h3, h4⟩
    · rw [h1]
      exact foldl_heappush_isHeap pushes rest (heappop_isHeap hinv.1 hp)
    · intro x hx
      rw [h1] at hx
      rw [h2]
      have hsplit : x ∈ (rest : Multiset Event) ∨ x ∈ (pushes : Multiset Event) := by
        rw [← Multiset.mem_add, ← foldl_heappush_coe]
        exact Multiset.mem_coe.mpr hx
      rcases hsplit with hx2 | hx2
      · have hx3 : x ∈ st.schedule.priority_queue := by
          rw [← Multiset.mem_coe, heappop_coe hp]
          exact Multiset.mem_cons_of_mem hx2
        have hroot := isHeap_root_le_mem hinv.1 hx3
        rw [← heappop_fst hp] at hroot
        exact hroot
      · obtain ⟨d, hd1, hd2⟩ := h5 x (Multiset.mem_coe.mp hx2)
        rw [hd1]
        have hd0 : 0 ≤ d := by
          rcases hd2 with rfl | rfl
          · exact le_of_lt (one_div_pos.mpr hrate)
          · exact hdraws st.drawIdx
        linarith

theorem clock_monotone_aux : ∀ (n : ℕ) (st : SimState),
    0 < st.airport.queue.service_rate → (∀ i, 0 ≤ st.draws i) →
    ScheduleInv st →
    (iterRun n st).schedule.now ≤ (iterRun (n + 1) st).schedule.now := by
  intro n
  induction n with
  | zero =>
    intro st h1 h2 h3
    exact (run_next_event_mono h1 h2 h3).1
  | succ n ih =>
    intro st h1 h2 h3
    obtain ⟨_, hinv2, hrate2, hdraws2⟩ := run_next_event_mono h1 h2 h3
    exact ih st.run_next_event (by rw [hrate2]; exact h1)
      (by rw [hdraws2]; exact h2) hinv2

/-! ### Draining an all-inert schedule -/

theorem drainNow_eq_popAll : ∀ (fuel : ℕ) (st : SimState),
    (∀ e ∈ st.schedule.priority_queue, e.handler = Handler.noop) →
    st.schedule.priority_queue.length ≤ fuel →
    drainNow fuel st = (popAll st.schedule.priority_queue).map Event.timestamp := by
  intro fuel
  induction fuel with
  | zero =>
    intro st hnoop hlen
    have hnil : st.schedule.priority_queue = [] :=
      List.length_eq_zero.mp (by omega)
    rw [drainNow, hnil, popAll_nil]
    rfl
  | succ n ih =>
    intro st hnoop hlen
    by_cases hemp : st.schedule.priority_queue = []
    · rw [drainNow, if_pos hemp, hemp, popAll_nil]
      rfl
    · rcases hp : heappop st.schedule.priority_queue with _ | ⟨e, rest⟩
      · exact absurd ((heappop_none_iff _).mp hp) hemp
      · have hmemE : e ∈ st.schedule.priority_queue := by
          rw [← Multiset.mem_coe, heappop_coe hp]
          exact Multiset.mem_cons_self _ _
        have hst := run_next_event_noop hp (hnoop e hmemE)
        rw [drainNow, if_neg hemp, hst, popAll_cons hp, List.map_cons]
        have hrest_noop : ∀ x ∈ rest, x.handler = Handler.noop := by
          intro x hx
          apply hnoop
          rw [← Multiset.mem_coe, heappop_coe hp]
          exact Multiset.mem_cons_of_mem (Multiset.mem_coe.mpr hx)
        have hrest_len : rest.length ≤ n := by
          have := heappop_length hp
          omega
        have := ih { st with schedule := ⟨e.timestamp, rest⟩ }
          hrest_noop hrest_len
        rw [this]

theorem addAllAt_pq_aux : ∀ (tss : List ℚ) (s : Schedule),
    (tss.foldl (fun s t => s.add_event_at t Handler.noop) s).priority_queue
      = List.foldl heappush s.priority_queue
          (tss.map (fun t => ⟨t, Handler.noop⟩)) := by
  intro tss
  induction tss with
  | nil => intro s; rfl
  | cons t rest ih =>
    intro s
    rw [List.foldl_cons, ih, List.map_cons, List.foldl_cons]
    rfl

/-! ### The driver loop -/

theorem driverTrace_le (run_until : ℚ) : ∀ (fuel : ℕ) (st : SimState)
    (x : ℚ), x ∈ driverTrace run_until fuel st → x ≤ run_until := by
  intro fuel
  induction fuel with
  | zero =>
    intro st x hx
    exact absurd hx (by simp [driverTrace])
  | succ n ih =>
    intro st x hx
    rw [driverTrace] at hx
    split at hx
    · rename_i hcond
      obtain ⟨h1, h2⟩ := hcond
      rcases List.mem_cons.mp hx with rfl | hx2
      · rcases hemp : st.schedule.priority_queue with _ | ⟨p, pr⟩
        · exact absurd hemp h1
        · have hnext : st.schedule.next_event_time = (p.timestamp : WithTop ℚ) := by
            unfold Schedule.next_event_time
            rw [hemp]
          rw [hnext] at h2
          have hle := WithTop.coe_le_coe.mp h2
          simpa using hle
      · exact ih _ x hx2
    · exact absurd hx (by simp)

theorem driverLoop_stop (run_until : ℚ) (fuel : ℕ) (st : SimState)
    (h : st.schedule.priority_queue = [] ∨
      ¬ st.schedule.next_event_time ≤ ((run_until : ℚ) : WithTop ℚ)) :
    driverLoop run_until fuel st = st := by
  cases fuel with
  | zero => rfl
  | succ n =>
    rw [driverLoop, if_neg]
    rintro ⟨h1, h2⟩
    rcases h with h | h
    · exact h1 h
    · exact h h2

theorem driverTrace_executes (run_until : ℚ) (fuel : ℕ) (st : SimState)
    (h1 : st.schedule.priority_queue ≠ [])
    (h2 : st.schedule.next_event_time ≤ ((run_until : ℚ) : WithTop ℚ))
    (h3 : 0 < fuel) :
    driverTrace run_until fuel st
      = (st.schedule.priority_queue.headD default).timestamp ::
        driverTrace run_until (fuel - 1) st.run_next_event := by
  cases fuel with
  | zero => omega
  | succ n =>
    rw [driverTrace, if_pos ⟨h1, h2⟩]
    rfl

theorem driverLoop_beyond (run_until : ℚ) : ∀ (fuel : ℕ) (st : SimState)
    (x : Event), x ∈ st.schedule.priority_queue → run_until < x.timestamp →
    x ∈ (driverLoop run_until fuel st).schedule.priority_queue := by
  intro fuel
  induction fuel with
  | zero =>
    intro st x hx hgt
    exact hx
  | succ n ih =>
    intro st x hx hgt
    rw [driverLoop]
    split
    · rename_i hcond
      obtain ⟨h1, h2⟩ := hcond
      apply ih
      · rcases hp : heappop st.schedule.priority_queue with _ | ⟨e, rest⟩
        · exact absurd ((heappop_none_iff _).mp hp) h1
        · obtain ⟨pushes, hpq, _, _, _, _⟩ := run_next_event_some hp
          rw [hpq]
          have hxne : x ≠ e := by
            intro he
            subst he
            have hfst := heappop_fst hp
            rcases hemp : st.schedule.priority_queue with _ | ⟨p, pr⟩
            · exact absurd hemp h1
            · have hnext : st.schedule.next_event_time
                  = (p.timestamp : WithTop ℚ) := by
                unfold Schedule.next_event_time
                rw [hemp]
              rw [hnext] at h2
              have hle := WithTop.coe_le_coe.mp h2
              rw [hemp, List.getD_cons_zero] at hfst
              rw [hfst] at hgt
              linarith
          have hxrest : x ∈ rest := by
            have hxm : x ∈ (st.schedule.priority_queue : Multiset Event) :=
              Multiset.mem_coe.mpr hx
            rw [heappop_coe hp] at hxm
            rcases Multiset.mem_cons.mp hxm with he | hr
            · exact absurd he hxne
            · exact Multiset.mem_coe.mp hr
          rw [← Multiset.mem_coe, foldl_heappush_coe]
          exact Multiset.mem_add.mpr (Or.inl (Multiset.mem_coe.mpr hxrest))
      · exact hgt
    · exact hx

/-! ### Concrete runs -/

theorem runAllEvents_empty : ∀ (fuel : ℕ) (st : SimState),
    st.schedule.priority_queue = [] → runAllEvents fuel st = st := by
  intro fuel st h
  cases fuel with
  | zero => rfl
  | succ n => rw [runAllEvents, if_pos h]

/-- Full evaluation of the single-arrival scenario. -/
theorem singleArrivalRun_eval (t rate : ℚ) (fuel : ℕ) (hfuel : 1 ≤ fuel) :
    singleArrivalRun t rate fuel
      = { schedule := ⟨t + 1 / rate, []⟩
          airport := { arrival_rate := 1,
                       queue := ⟨0, 0, rate, [1, 1, 0], [t, t, t + 1 / rate]⟩ }
          draws := zeroDraws
          drawIdx := 0 } := by
  obtain ⟨n, rfl⟩ : ∃ n, fuel = n + 1 := ⟨fuel - 1, by omega⟩
  unfold singleArrivalRun
  have harr : (Queue.init rate).arrival (Schedule.mk t [])
      = (⟨0, 1, rate, [1, 1], [t, t]⟩,
         ⟨t, [⟨t + 1 / rate, Handler.endService⟩]⟩) := by
    simp [Queue.arrival, Queue.init, Queue.record_state, Queue.start_service,
      Schedule.add_event_after, Schedule.add_event_at, heappush_nil]
  rw [harr]
  rw [runAllEvents, if_neg (by simp)]
  have hrun : SimState.run_next_event
      { schedule := ⟨t, [⟨t + 1 / rate, Handler.endService⟩]⟩
        airport := { arrival_rate := 1, queue := ⟨0, 1, rate, [1, 1], [t, t]⟩ }
        draws := zeroDraws
        drawIdx := 0 }
      = { schedule := ⟨t + 1 / rate, []⟩
          airport := { arrival_rate := 1,
                       queue := ⟨0, 0, rate, [1, 1, 0], [t, t, t + 1 / rate]⟩ }
          draws := zeroDraws
          drawIdx := 0 } := by
    simp [SimState.run_next_event, heappop_single, runHandler,
      Queue.end_service, Queue.record_state, Queue.start_service]
  rw [hrun]
  exact runAllEvents_empty n _ rfl

/-- With zero fuel the driver has only built the system and scheduled the
initial arrival: exactly one pending event, no validation of any kind. -/
theorem run_simulation_init_pq (lam mu T : ℚ) (draws : ℕ → ℚ) :
    (run_simulation lam mu T draws 0).schedule.priority_queue
      = [⟨0 + draws 0, Handler.handleArrival⟩] := by
  show heappush [] ⟨0 + draws 0, Handler.handleArrival⟩ = _
  exact heappush_nil _

/-! ### The single-server invariant -/

theorem Queue.start_service_in_service (q : Queue) (s : Schedule) :
    (q.start_service s).1.in_service = 1 ∨
    (q.start_service s).1.in_service = q.in_service := by
  unfold Queue.start_service
  split
  · left
    rfl
  · right
    rfl

theorem Queue.end_service_in_service (q : Queue) (s : Schedule) :
    (q.end_service s).1.in_service ≤ 1 := by
  simp only [Queue.end_service]
  split
  · rcases Queue.start_service_in_service _ s with h | h <;> rw [h]
    simp [Queue.record_state]
  · simp [Queue.record_state]

theorem Queue.arrival_in_service (q : Queue) (s : Schedule)
    (h : q.in_service ≤ 1) : (q.arrival s).1.in_service ≤ 1 := by
  simp only [Queue.arrival]
  split
  · rename_i hcond
    rcases Queue.start_service_in_service _ s with h2 | h2 <;> rw [h2]
    rw [hcond]
    omega
  · simpa [Queue.record_state] using h

theorem applyQOps_in_service : ∀ (ops : List QOp) (p : Queue × Schedule),
    p.1.in_service ≤ 1 → (applyQOps ops p).1.in_service ≤ 1 := by
  intro ops
  induction ops with
  | nil => intro p h; exact h
  | cons op rest ih =>
    intro p h
    show (applyQOps rest (applyQOp op p)).1.in_service ≤ 1
    apply ih
    cases op with
    | arrival => exact Queue.arrival_in_service _ _ h
    | startService =>
      rcases Queue.start_service_in_service p.1 p.2 with h2 | h2
      · show (p.1.start_service p.2).1.in_service ≤ 1
        omega
      · show (p.1.start_service p.2).1.in_service ≤ 1
        omega
    | endService => exact Queue.end_service_in_service _ _

/-! ### The verified claims -/

/-- Claim C1, amended: along any sequence of `run_next_event` calls from a
state in which no pending event lies before the clock (with the heap shape
`heapq` maintains, a positive service rate and non-negative draws), `now`
never decreases.  As stated originally the claim is false: `add_event_at`
never compares its timestamp with `now`, so states with past-dated pending
events are reachable and `run_next_event` then moves the clock backwards. -/
theorem C1_clock_monotone (st : SimState)
    (hrate : 0 < st.airport.queue.service_rate)
    (hdraws : ∀ i, 0 ≤ st.draws i)
    (hinv : ScheduleInv st) (n : ℕ) :
    (iterRun n st).schedule.now ≤ (iterRun (n + 1) st).schedule.now :=
  clock_monotone_aux n st hrate hdraws hinv

/-- Claim C1, witness: a concrete monotone step. -/
theorem C1_witness :
    (iterRun 0 (mkScheduleState ⟨0, [⟨2, Handler.noop⟩]⟩)).schedule.now ≤
      (iterRun 1 (mkScheduleState ⟨0, [⟨2, Handler.noop⟩]⟩)).schedule.now := by
  apply C1_clock_monotone
  · norm_num [mkScheduleState, Queue.init]
  · intro i
    exact le_refl 0
  · constructor
    · intro i hi hlen
      simp [mkScheduleState] at hlen
      omega
    · intro e he
      simp only [mkScheduleState] at he
      rw [List.mem_singleton] at he
      subst he
      norm_num [mkScheduleState]

/-- Claim C1, counterexample: from the freshly built schedule, `add_event_at 5`,
one `run_next_event` (clock 0 → 5), then `add_event_at 3` — all legal calls,
the code rejects none of them — reaches a state from which the next
`run_next_event` call moves the clock from 5 back to 3. -/
theorem C1_counterexample :
    (let st0 := mkScheduleState (Schedule.init.add_event_at 5 Handler.noop)
     let st1 := st0.run_next_event
     let st2 := { st1 with schedule := st1.schedule.add_event_at 3 Handler.noop }
     st2.run_next_event.schedule.now < st2.schedule.now) := by
  simp only [mkScheduleState, Schedule.init, Schedule.add_event_at,
    SimState.run_next_event, heappush_nil, heappop_single, runHandler]
  norm_num

/-- Claim C2: pushing any finite list of events (in any order) and then
popping them all yields timestamps that are sorted non-decreasingly and are a
permutation of the input timestamps — i.e. the sorted input.  The same holds
at the Schedule level: `add_event_at` for an arbitrary list of timestamps,
then `run_next_event` to exhaustion, observes exactly the sorted input
timestamps on the clock.  The pop order (hence the equal-timestamp
tie-break) is a pure function of the push order: the `heapq` algorithm is
the fixed, deterministic tie-break rule. -/
theorem C2_global_ordering (evs : List Event) (tss : List ℚ) :
    (List.Sorted (· ≤ ·)
        ((popAll (List.foldl heappush [] evs)).map Event.timestamp) ∧
      ((popAll (List.foldl heappush [] evs)).map Event.timestamp).Perm
        (evs.map Event.timestamp)) ∧
    (List.Sorted (· ≤ ·)
        (drainNow tss.length (mkScheduleState (addAllAt tss))) ∧
      (drainNow tss.length (mkScheduleState (addAllAt tss))).Perm tss) := by
  have key : ∀ l : List Event,
      List.Sorted (· ≤ ·)
          ((popAll (List.foldl heappush [] l)).map Event.timestamp) ∧
        (popAll (List.foldl heappush [] l)).Perm l := by
    intro l
    have hheap := foldl_heappush_isHeap l [] isHeap_nil
    refine ⟨popAll_sorted _ _ rfl hheap, ?_⟩
    rw [← Multiset.coe_eq_coe, popAll_coe _ _ rfl, foldl_heappush_coe]
    simp
  constructor
  · exact ⟨(key evs).1, ((key evs).2).map _⟩
  · have hpq : (mkScheduleState (addAllAt tss)).schedule.priority_queue
        = List.foldl heappush [] (tss.map (fun t => ⟨t, Handler.noop⟩)) := by
      show (addAllAt tss).priority_queue = _
      unfold addAllAt
      exact addAllAt_pq_aux tss Schedule.init
    have hco : ((mkScheduleState (addAllAt tss)).schedule.priority_queue :
          Multiset Event)
        = ((tss.map (fun t => ⟨t, Handler.noop⟩) : List Event) :
            Multiset Event) := by
      rw [hpq, foldl_heappush_coe]
      simp
    have hnoop : ∀ e ∈ (mkScheduleState (addAllAt tss)).schedule.priority_queue,
        e.handler = Handler.noop := by
      intro e he
      have hmem : e ∈ tss.map (fun t => (⟨t, Handler.noop⟩ : Event)) := by
        rw [← Multiset.mem_coe, ← hco, Multiset.mem_coe]
        exact he
      obtain ⟨t, _, rfl⟩ := List.mem_map.mp hmem
      rfl
    have hlen : (mkScheduleState (addAllAt tss)).schedule.priority_queue.length
        = tss.length := by
      have := congrArg Multiset.card hco
      simpa using this
    have hdrain := drainNow_eq_popAll tss.length (mkScheduleState (addAllAt tss))
      hnoop (le_of_eq hlen)
    rw [hdrain, hpq]
    have hk := key (tss.map (fun t => ⟨t, Handler.noop⟩))
    refine ⟨hk.1, ?_⟩
    have hperm := (hk.2).map Event.timestamp
    rw [List.map_map] at hperm
    have hcomp : (Event.timestamp ∘ fun t =>
        ({ timestamp := t, handler := Handler.noop } : Event)) = id := by
      funext u
      rfl
    rw [hcomp, List.map_id] at hperm
    exact hperm

/-- Claim C3, counterexample: with the clock at 5, `add_event_at 3` simply
inserts the past-dated event; no `InvalidTime` failure exists anywhere in the
code (it defines no such error and performs no comparison with `now`). -/
theorem C3_counterexample :
    (3 : ℚ) < (Schedule.mk 5 []).now ∧
    ((Schedule.mk 5 []).add_event_at 3 Handler.noop).priority_queue
      = [⟨3, Handler.noop⟩] := by
  constructor
  · norm_num
  · show heappush [] ⟨3, Handler.noop⟩ = _
    exact heappush_nil _

/-- Claim C3, amended: for every timestamp strictly earlier than `now`,
`add_event_at` silently inserts the event (leaving the clock unchanged)
instead of failing: the source performs no timestamp check and defines no
`InvalidTime` error. -/
theorem C3_add_event_at_inserts (s : Schedule) (t : ℚ) (hd : Handler)
    (h : t < s.now) :
    ((s.add_event_at t hd).priority_queue : Multiset Event)
      = (⟨t, hd⟩ : Event) ::ₘ (s.priority_queue : Multiset Event) ∧
    (s.add_event_at t hd).now = s.now :=
  ⟨heappush_coe _ _, rfl⟩

/-- Claim C3, witness. -/
theorem C3_witness :
    (((Schedule.mk 5 []).add_event_at 3 Handler.noop).priority_queue :
        Multiset Event)
      = (⟨3, Handler.noop⟩ : Event) ::ₘ (([] : List Event) : Multiset Event) :=
  (C3_add_event_at_inserts (Schedule.mk 5 []) 3 Handler.noop (by norm_num)).1

/-- Claim C4, counterexample: with service rate −1 ≤ 0 the driver performs no
validation whatsoever: construction succeeds and the initial arrival event is
scheduled (simulation work occurs), rather than failing with
`InvalidParameter` (the code defines no such error). -/
theorem C4_counterexample :
    ((-1 : ℚ) ≤ 0) ∧
    (run_simulation 1 (-1) 2 zeroDraws 0).schedule.priority_queue
      = [⟨0 + zeroDraws 0, Handler.handleArrival⟩] :=
  ⟨by norm_num, run_simulation_init_pq 1 (-1) 2 zeroDraws⟩

/-- Claim C4, amended: `run_simulation` validates nothing: for every choice
of arrival rate, service rate and horizon (including non-positive or negative
values) construction succeeds, the queue is built, and exactly one initial
arrival event is scheduled; no `InvalidParameter` error exists. -/
theorem C4_no_validation (lam mu T : ℚ) (draws : ℕ → ℚ) :
    (run_simulation lam mu T draws 0).schedule.priority_queue
      = [⟨0 + draws 0, Handler.handleArrival⟩] ∧
    (run_simulation lam mu T draws 0).schedule.now = 0 ∧
    (run_simulation lam mu T draws 0).airport.queue = Queue.init mu ∧
    (run_simulation lam mu T draws 0).airport.arrival_rate = lam :=
  ⟨run_simulation_init_pq lam mu T draws, rfl, rfl, rfl⟩

/-- Claim C5: under the precondition `waiting > 0 ∧ inService = 0`,
`start_service` decrements the queue by exactly one, occupies the server,
appends exactly one sample timestamped at the current clock, leaves the clock
alone, and schedules exactly one `end_service` event at
`now + 1/service_rate` — a deterministic interval. -/
theorem C5_start_service (q : Queue) (s : Schedule)
    (h1 : 0 < q.queue_length) (h2 : q.in_service = 0) :
    (q.start_service s).1.queue_length + 1 = q.queue_length ∧
    (q.start_service s).1.in_service = 1 ∧
    (q.start_service s).1.time_history = q.time_history ++ [s.now] ∧
    (q.start_service s).1.queue_length_history
      = q.queue_length_history ++ [q.queue_length - 1 + 1] ∧
    (q.start_service s).2.now = s.now ∧
    ((q.start_service s).2.priority_queue : Multiset Event)
      = (⟨s.now + 1 / q.service_rate, Handler.endService⟩ : Event) ::ₘ
        (s.priority_queue : Multiset Event) := by
  have hstep : q.start_service s
      = (({ q with queue_length := q.queue_length - 1, in_service := 1
           } : Queue).record_state s.now,
         s.add_event_after (1 / q.service_rate) Handler.endService) := by
    unfold Queue.start_service
    rw [if_pos ⟨h1, h2⟩]
  rw [hstep]
  refine ⟨?_, rfl, rfl, rfl, rfl, ?_⟩
  · simp only [Queue.record_state]
    omega
  · exact heappush_coe _ _

/-- Claim C5, witness. -/
theorem C5_witness :
    ((⟨1, 0, 2, [], []⟩ : Queue).start_service ⟨3, []⟩).1.in_service = 1 :=
  (C5_start_service ⟨1, 0, 2, [], []⟩ ⟨3, []⟩ (by norm_num) rfl).2.1

/-- Claim C6: from the initial queue, any sequence of `arrival`,
`start_service` and `end_service` calls keeps `in_service` in `{0, 1}` (hence
also at every instant a history sample is recorded). -/
theorem C6_single_server (ops : List QOp) (s : Schedule) (rate : ℚ) :
    (applyQOps ops (Queue.init rate, s)).1.in_service = 0 ∨
    (applyQOps ops (Queue.init rate, s)).1.in_service = 1 := by
  have h := applyQOps_in_service ops (Queue.init rate, s)
    (by simp [Queue.init])
  omega

/-- Claim C7: after `end_service`, if the cascade did not fire (nobody was
waiting) then `waiting = 0`; equivalently, whenever `in_service = 0` after
the call, `waiting = 0`. -/
theorem C7_post_cascade (q : Queue) (s : Schedule) :
    (q.queue_length = 0 → (q.end_service s).1.queue_length = 0) ∧
    ((q.end_service s).1.in_service = 0 → (q.end_service s).1.queue_length = 0) := by
  simp only [Queue.end_service]
  split
  · rename_i hpos
    constructor
    · intro h0
      exfalso
      simp only [Queue.record_state] at hpos
      omega
    · intro hsvc
      exfalso
      have h1 : ((({ q with in_service := 0 } : Queue).record_state
          s.now).start_service s).1.in_service = 1 := by
        unfold Queue.start_service
        rw [if_pos]
        · rfl
        · exact ⟨hpos, rfl⟩
      rw [h1] at hsvc
      exact absurd hsvc one_ne_zero
  · rename_i hneg
    have h0 : (({ q with in_service := 0 } : Queue).record_state
        s.now).queue_length = 0 := by
      omega
    exact ⟨fun _ => h0, fun _ => h0⟩

/-- Claim C7, witness: ending service on an empty queue leaves no one
waiting. -/
theorem C7_witness :
    ((Queue.init 1).end_service ⟨0, []⟩).1.queue_length = 0 :=
  (C7_post_cascade (Queue.init 1) ⟨0, []⟩).1 rfl

/-- Claim C8: the driver loop pops only events whose timestamp is at most the
horizon (so every popped timestamp in its trace is `≤ run_until`); events
beyond the horizon are never popped and remain pending at loop exit; when the
earliest pending timestamp equals the horizon exactly, the loop does execute
it; and the loop stops (leaving the state untouched) exactly when no event is
pending or the earliest pending timestamp exceeds the horizon. -/
theorem C8_run_loop (run_until : ℚ) (fuel : ℕ) (st : SimState) :
    (∀ x ∈ driverTrace run_until fuel st, x ≤ run_until) ∧
    (∀ x ∈ st.schedule.priority_queue, run_until < x.timestamp →
      x ∈ (driverLoop run_until fuel st).schedule.priority_queue) ∧
    (st.schedule.priority_queue ≠ [] →
      st.schedule.next_event_time = ((run_until : ℚ) : WithTop ℚ) → 0 < fuel →
      driverTrace run_until fuel st
        = (st.schedule.priority_queue.headD default).timestamp ::
          driverTrace run_until (fuel - 1) st.run_next_event ∧
      (st.schedule.priority_queue.headD default).timestamp = run_until) ∧
    (st.schedule.priority_queue = [] ∨
        ¬ st.schedule.next_event_time ≤ ((run_until : ℚ) : WithTop ℚ) →
      driverLoop run_until fuel st = st) := by
  refine ⟨fun x hx => driverTrace_le run_until fuel st x hx,
    fun x hx hgt => driverLoop_beyond run_until fuel st x hx hgt,
    fun h1 h2 h3 =>
      ⟨driverTrace_executes run_until fuel st h1 (le_of_eq h2) h3, ?_⟩,
    driverLoop_stop run_until fuel st⟩
  rcases hemp : st.schedule.priority_queue with _ | ⟨p, pr⟩
  · exact absurd hemp h1
  · have hnext : st.schedule.next_event_time = (p.timestamp : WithTop ℚ) := by
      unfold Schedule.next_event_time
      rw [hemp]
    rw [hnext] at h2
    have hpt := WithTop.coe_inj.mp h2
    simpa using hpt

/-- Claim C8, witness: with the earliest pending timestamp equal to the
horizon the loop executes it; with nothing pending the loop is the
identity. -/
theorem C8_witness :
    ((mkScheduleState ⟨0, [⟨1, Handler.noop⟩, ⟨5, Handler.noop⟩]⟩ :
        SimState).schedule.priority_queue.headD default).timestamp = 1 ∧
    driverLoop 1 1 (mkScheduleState ⟨0, []⟩) = mkScheduleState ⟨0, []⟩ := by
  constructor
  · exact ((C8_run_loop 1 1
      (mkScheduleState ⟨0, [⟨1, Handler.noop⟩, ⟨5, Handler.noop⟩]⟩)).2.2.1
      (by simp [mkScheduleState]) rfl (by norm_num)).2
  · exact (C8_run_loop 1 1 (mkScheduleState ⟨0, []⟩)).2.2.2 (Or.inl rfl)

/-- Claim C9, counterexample: the single-arrival run records THREE samples,
not two: `arrival` records `(t, 1)` and the inline `start_service` records a
second `(t, 1)` at the same instant, before the final `(t + 1/serviceRate, 0)`
sample. -/
theorem C9_counterexample :
    (singleArrivalRun 0 1 1).airport.queue.queue_length_history = [1, 1, 0] ∧
    ([1, 1, 0] : List ℕ) ≠ [1, 0] := by
  constructor
  · rw [singleArrivalRun_eval 0 1 1 (le_refl 1)]
  · simp

/-- Claim C9, amended: starting from an empty Queue with an empty Schedule at
clock time `t`, one `arrival()` followed by running the Schedule to
completion leaves `waiting = 0`, `inService = 0`, and the recorded history is
exactly TWO `(t, 1)` samples (one from `arrival`, one from the inline
`start_service`) followed by one `(t + 1/serviceRate, 0)` sample. -/
theorem C9_single_arrival (t rate : ℚ) (fuel : ℕ) (hfuel : 1 ≤ fuel) :
    (singleArrivalRun t rate fuel).airport.queue.queue_length = 0 ∧
    (singleArrivalRun t rate fuel).airport.queue.in_service = 0 ∧
    (singleArrivalRun t rate fuel).airport.queue.time_history
      = [t, t, t + 1 / rate] ∧
    (singleArrivalRun t rate fuel).airport.queue.queue_length_history
      = [1, 1, 0] ∧
    (singleArrivalRun t rate fuel).schedule.priority_queue = [] := by
  rw [singleArrivalRun_eval t rate fuel hfuel]
  exact ⟨rfl, rfl, rfl, rfl, rfl⟩

/-- Claim C9, witness. -/
theorem C9_witness :
    (singleArrivalRun 0 1 1).airport.queue.time_history = [0, 0, 0 + 1 / 1] :=
  (C9_single_arrival 0 1 1 (le_refl 1)).2.2.1

/-- Claim C10: when the `start_service` guard fails (`waiting = 0` or
`inService ≠ 0`) the call is a complete no-op: the queue (every field) and
the schedule are returned unchanged, and nothing is scheduled. -/
theorem C10_no_op (q : Queue) (s : Schedule)
    (h : q.queue_length = 0 ∨ q.in_service ≠ 0) :
    q.start_service s = (q, s) := by
  unfold Queue.start_service
  rw [if_neg]
  rintro ⟨h1, h2⟩
  rcases h with h | h
  · omega
  · exact h h2

/-- Claim C10, witness. -/
theorem C10_witness :
    (Queue.init 1).start_service ⟨0, []⟩ = (Queue.init 1, ⟨0, []⟩) :=
  C10_no_op (Queue.init 1) ⟨0, []⟩ (Or.inl rfl)

end MD1
